import Mathlib

/-!
Verification of the ferrumc component-storage core and two auxiliary routines.

The entity-component store (`crates/async_ecs/src/component.rs`) is embedded
sequentially: the concurrent map (`DashMap`) becomes an association list, the
per-cell `RwLock` protocol is elided (claims here are about the functional
contract observed through `insert` / `get` / `get_mut` / `remove`), and `f32`
field values are represented by their 32-bit patterns, since the store never
computes with them.
-/

/-- Modelled from the spec: the Sparse Index Set of `crate::helpers::sparse_set`
is referenced by `component.rs` but its source is not part of the excerpt.
Per spec §4.1 it holds a sparse array mapping entity id to an optional dense
index, and a dense array of slots; `insert` replaces an existing slot or
allocates a new one (growing the sparse index as needed), `get` is a pure
lookup, and `remove` uses swap-remove: the last dense slot moves into the
removed position and the moved element's sparse index is updated. -/
structure SparseSet (α : Type) where
  sparse : List (Option Nat)
  dense  : List (Nat × α)

namespace SparseSet

/-- Fresh, empty sparse set (`SparseSet::new`). -/
def new : SparseSet α := ⟨[], []⟩

/-- Dense index recorded for entity `i`, if any (out-of-range reads are `none`). -/
def find (s : SparseSet α) (i : Nat) : Option Nat := s.sparse.getD i none

/-- Grow the sparse index array with empty slots so that position `n` exists. -/
def growTo (l : List (Option Nat)) (n : Nat) : List (Option Nat) :=
  l ++ List.replicate (n + 1 - l.length) none

/-- Modelled from the spec: `insert(id, value)` replaces the contents of an
existing slot, otherwise allocates a fresh dense slot at the end and points the
sparse index at it. -/
def insert (s : SparseSet α) (i : Nat) (v : α) : SparseSet α :=
  match s.find i with
  | some d => ⟨s.sparse, s.dense.set d (i, v)⟩
  | none   => ⟨(growTo s.sparse i).set i (some s.dense.length), s.dense ++ [(i, v)]⟩

/-- Modelled from the spec: `get(id)` returns the slot's value if present. -/
def get (s : SparseSet α) (i : Nat) : Option α :=
  (s.find i).bind fun d => (s.dense[d]?).map Prod.snd

/-- Modelled from the spec: `remove(id)` swap-removes the slot: the last dense
slot is moved into the removed position, the moved element's sparse entry is
redirected there, and the removed id's sparse entry is cleared. No-op when `id`
has no slot. -/
def remove (s : SparseSet α) (i : Nat) : SparseSet α :=
  match s.find i with
  | none => s
  | some d =>
    match s.dense.getLast? with
    | none => s
    | some (li, lv) =>
      ⟨(s.sparse.set li (some d)).set i none, (s.dense.set d (li, lv)).dropLast⟩

/-- In-place update of the value stored in `i`'s slot, modelling a mutation
performed through a `ComponentRefMut` write guard. -/
def modify (s : SparseSet α) (i : Nat) (f : α → α) : SparseSet α :=
  match s.find i with
  | none => s
  | some d =>
    match s.dense[d]? with
    | none => s
    | some (j, v) => ⟨s.sparse, s.dense.set d (j, f v)⟩

/-- Well-formedness: the sparse and dense views agree. Every recorded dense
index holds a slot tagged with the owning id, and every dense slot is reachable
from its id's sparse entry. -/
def WF (s : SparseSet α) : Prop :=
  (∀ i d, s.find i = some d → ∃ v, s.dense[d]? = some (i, v)) ∧
  (∀ d i v, s.dense[d]? = some (i, v) → s.find i = some d)

theorem WF_new : (new : SparseSet α).WF := by
  constructor
  · intro i d h
    simp [new, find, List.getD_eq_getElem?_getD] at h
  · intro d i v h
    simp [new] at h

theorem get_new (i : Nat) : (new : SparseSet α).get i = none := by
  simp [get, new, find, List.getD_eq_getElem?_getD]

theorem find_lt_length {s : SparseSet α} {i d : Nat} (h : s.find i = some d) :
    i < s.sparse.length := by
  by_contra hlt
  rw [find, List.getD_eq_getElem?_getD, List.getElem?_eq_none (Nat.le_of_not_lt hlt)] at h
  simp at h

theorem getD_growTo (l : List (Option Nat)) (n j : Nat) :
    (growTo l n).getD j none = l.getD j none := by
  rw [growTo, List.getD_eq_getElem?_getD, List.getD_eq_getElem?_getD]
  rcases Nat.lt_or_ge j l.length with h | h
  · rw [List.getElem?_append_left h]
  · rw [List.getElem?_append_right h, List.getElem?_eq_none h,
      List.getElem?_replicate]
    split <;> rfl

theorem length_growTo (l : List (Option Nat)) (n : Nat) :
    n < (growTo l n).length := by
  rw [growTo, List.length_append, List.length_replicate]
  omega

theorem lt_of_getElem?_some {l : List β} {d : Nat} {p : β} (h : l[d]? = some p) :
    d < l.length :=
  (List.getElem?_eq_some_iff.mp h).1

theorem pair_eq_parts {β γ : Type} {a c : β} {b d : γ}
    (h : (some (a, b) : Option (β × γ)) = some (c, d)) : a = c ∧ b = d := by
  injection h with h'
  injection h' with h1 h2
  exact ⟨h1, h2⟩

theorem find_inj {s : SparseSet α} (hw : s.WF) {i j d : Nat}
    (hi : s.find i = some d) (hj : s.find j = some d) : i = j := by
  obtain ⟨v, hv⟩ := hw.1 i d hi
  obtain ⟨w, hwj⟩ := hw.1 j d hj
  exact (pair_eq_parts (hv.symm.trans hwj)).1

theorem find_insert_self {s : SparseSet α} {i : Nat} {v : α} :
    (s.insert i v).find i = some ((s.find i).getD s.dense.length) := by
  rcases hfi : s.find i with _ | d <;> simp only [insert, hfi]
  · show ((growTo s.sparse i).set i (some s.dense.length)).getD i none = _
    rw [List.getD_eq_getElem?_getD,
      List.getElem?_set_self (by simpa using length_growTo s.sparse i)]
    rfl
  · exact hfi

theorem find_insert_ne {s : SparseSet α} {i j : Nat} {v : α} (hne : j ≠ i) :
    (s.insert i v).find j = s.find j := by
  rcases hfi : s.find i with _ | d <;> simp only [insert, hfi]
  · show ((growTo s.sparse i).set i (some s.dense.length)).getD j none = _
    rw [List.getD_eq_getElem?_getD, List.getElem?_set_ne (fun h => hne h.symm),
      ← List.getD_eq_getElem?_getD, getD_growTo]
    rfl
  · rfl

theorem get_insert_self {s : SparseSet α} (hw : s.WF) (i : Nat) (v : α) :
    (s.insert i v).get i = some v := by
  rcases hfi : s.find i with _ | d
  · have hfind : (s.insert i v).find i = some s.dense.length := by
      rw [find_insert_self, hfi, Option.getD_none]
    rw [get, hfind, Option.some_bind]
    have hdense : (s.insert i v).dense = s.dense ++ [(i, v)] := by
      simp only [insert, hfi]
    rw [hdense, List.getElem?_concat_length]
    rfl
  · obtain ⟨w, hd⟩ := hw.1 i d hfi
    have hdl : d < s.dense.length := lt_of_getElem?_some hd
    have hfind : (s.insert i v).find i = some d := by
      rw [find_insert_self, hfi, Option.getD_some]
    rw [get, hfind, Option.some_bind]
    have hdense : (s.insert i v).dense = s.dense.set d (i, v) := by
      simp only [insert, hfi]
    rw [hdense, List.getElem?_set_self hdl]
    rfl

theorem get_insert_ne {s : SparseSet α} (hw : s.WF) {i j : Nat} (hne : j ≠ i)
    (v : α) : (s.insert i v).get j = s.get j := by
  rw [get, get, find_insert_ne hne]
  rcases hfj : s.find j with _ | e
  · rfl
  · obtain ⟨u, hu⟩ := hw.1 j e hfj
    rw [Option.some_bind, Option.some_bind]
    rcases hfi : s.find i with _ | d
    · have hdense : (s.insert i v).dense = s.dense ++ [(i, v)] := by
        simp only [insert, hfi]
      rw [hdense, List.getElem?_append_left (lt_of_getElem?_some hu)]
    · obtain ⟨w, hwd⟩ := hw.1 i d hfi
      have hed : e ≠ d := fun h => by
        rw [h] at hu
        exact hne (pair_eq_parts (hu.symm.trans hwd)).1
      have hdense : (s.insert i v).dense = s.dense.set d (i, v) := by
        simp only [insert, hfi]
      rw [hdense, List.getElem?_set_ne (fun h => hed h.symm)]

theorem WF_insert {s : SparseSet α} (hw : s.WF) (i : Nat) (v : α) :
    (s.insert i v).WF := by
  rcases hfi : s.find i with _ | d
  · -- fresh slot at the end of the dense array
    have hdense : (s.insert i v).dense = s.dense ++ [(i, v)] := by
      simp only [insert, hfi]
    constructor
    · intro j e hje
      by_cases hj : j = i
      · rw [hj, find_insert_self, hfi, Option.getD_none] at hje
        have he : e = s.dense.length := (Option.some.inj hje).symm
        refine ⟨v, ?_⟩
        rw [hdense, hj, he]
        exact List.getElem?_concat_length s.dense (i, v)
      · rw [find_insert_ne hj] at hje
        obtain ⟨u, hu⟩ := hw.1 j e hje
        exact ⟨u, by rw [hdense, List.getElem?_append_left (lt_of_getElem?_some hu), hu]⟩
    · intro e j u hju
      rw [hdense] at hju
      rcases Nat.lt_trichotomy e s.dense.length with he | he | he
      · rw [List.getElem?_append_left he] at hju
        have hj : s.find j = some e := hw.2 e j u hju
        have hji : j ≠ i := fun h => by
          rw [h, hfi] at hj
          exact Option.noConfusion hj
        rw [find_insert_ne hji]
        exact hj
      · rw [he, List.getElem?_concat_length] at hju
        obtain ⟨hij, _⟩ := pair_eq_parts hju
        rw [← hij, find_insert_self, hfi, Option.getD_none, he]
      · rw [List.getElem?_append_right (Nat.le_of_lt he),
          List.getElem?_eq_none (by simp; omega)] at hju
        exact Option.noConfusion hju
  · -- overwrite of an existing slot
    obtain ⟨w, hwd⟩ := hw.1 i d hfi
    have hdl : d < s.dense.length := lt_of_getElem?_some hwd
    have hdense : (s.insert i v).dense = s.dense.set d (i, v) := by
      simp only [insert, hfi]
    constructor
    · intro j e hje
      by_cases hj : j = i
      · rw [hj, find_insert_self, hfi, Option.getD_some] at hje
        have he : e = d := (Option.some.inj hje).symm
        refine ⟨v, ?_⟩
        rw [hdense, hj, he, List.getElem?_set_self hdl]
      · rw [find_insert_ne hj] at hje
        obtain ⟨u, hu⟩ := hw.1 j e hje
        have hed : e ≠ d := fun h => by
          rw [h] at hu
          exact hj (pair_eq_parts (hu.symm.trans hwd)).1
        exact ⟨u, by rw [hdense, List.getElem?_set_ne (fun h => hed h.symm), hu]⟩
    · intro e j u hju
      rw [hdense] at hju
      by_cases hed : e = d
      · rw [hed, List.getElem?_set_self hdl] at hju
        obtain ⟨hji, _⟩ := pair_eq_parts hju
        rw [← hji, hed, find_insert_self, hfi, Option.getD_some]
      · rw [List.getElem?_set_ne (fun h => hed h.symm)] at hju
        have hj : s.find j = some e := hw.2 e j u hju
        have hji : j ≠ i := fun h => by
          rw [h, hfi] at hj
          exact hed (Option.some.inj hj).symm
        rw [find_insert_ne hji]
        exact hj

theorem remove_eq_of_find_none {s : SparseSet α} {i : Nat} (h : s.find i = none) :
    s.remove i = s := by
  simp only [remove, h]

theorem find_remove_self {s : SparseSet α} (hw : s.WF) (i : Nat) :
    (s.remove i).find i = none := by
  rcases h : s.find i with _ | d
  · rw [remove_eq_of_find_none h]
    exact h
  · obtain ⟨w, hwd⟩ := hw.1 i d h
    rcases hlast : s.dense.getLast? with _ | ⟨li, lv⟩
    · rw [List.getLast?_eq_none_iff] at hlast
      rw [hlast] at hwd
      simp at hwd
    · have hrem : s.remove i = ⟨(s.sparse.set li (some d)).set i none,
          (s.dense.set d (li, lv)).dropLast⟩ := by
        simp only [remove, h, hlast]
      have hisp : i < s.sparse.length := find_lt_length h
      rw [hrem]
      show ((s.sparse.set li (some d)).set i none).getD i none = none
      rw [List.getD_eq_getElem?_getD, List.getElem?_set_self (by simpa using hisp)]
      rfl

theorem get_remove_self {s : SparseSet α} (hw : s.WF) (i : Nat) :
    (s.remove i).get i = none := by
  rw [get, find_remove_self hw]
  rfl

theorem remove_remove {s : SparseSet α} (hw : s.WF) (i : Nat) :
    (s.remove i).remove i = s.remove i :=
  remove_eq_of_find_none (find_remove_self hw i)

theorem get_remove_ne {s : SparseSet α} (hw : s.WF) {i j : Nat} (hne : j ≠ i) :
    (s.remove i).get j = s.get j := by
  rcases h : s.find i with _ | d
  · rw [remove_eq_of_find_none h]
  · obtain ⟨w, hwd⟩ := hw.1 i d h
    rcases hlast : s.dense.getLast? with _ | ⟨li, lv⟩
    · rw [List.getLast?_eq_none_iff] at hlast
      rw [hlast] at hwd
      simp at hwd
    · have hrem : s.remove i = ⟨(s.sparse.set li (some d)).set i none,
          (s.dense.set d (li, lv)).dropLast⟩ := by
        simp only [remove, h, hlast]
      have hLd : s.dense[s.dense.length - 1]? = some (li, lv) := by
        rw [← List.getLast?_eq_getElem?]
        exact hlast
      have hfli : s.find li = some (s.dense.length - 1) := hw.2 _ _ _ hLd
      have hdl : d < s.dense.length := lt_of_getElem?_some hwd
      have hlisp : li < s.sparse.length := find_lt_length hfli
      have hdense : (s.remove i).dense = (s.dense.set d (li, lv)).dropLast := by
        rw [hrem]
      by_cases hjli : j = li
      · have hlii : li ≠ i := fun hh => hne (hjli.trans hh)
        have hdL : d ≠ s.dense.length - 1 := fun hh => by
          rw [hh] at hwd
          exact hlii (pair_eq_parts (hLd.symm.trans hwd)).1
        have hdlt : d < s.dense.length - 1 := by omega
        have hfind : (s.remove i).find j = some d := by
          rw [hrem, hjli]
          show ((s.sparse.set li (some d)).set i none).getD li none = some d
          rw [List.getD_eq_getElem?_getD, List.getElem?_set_ne (fun hh => hlii hh.symm),
            List.getElem?_set_self (by simpa using hlisp)]
          rfl
        rw [get, hfind, Option.some_bind, hdense, List.getElem?_dropLast,
          List.length_set, if_pos hdlt, List.getElem?_set_self (by omega),
          get, hjli, hfli, Option.some_bind, hLd]
      · have hfind : (s.remove i).find j = s.find j := by
          rw [hrem]
          show ((s.sparse.set li (some d)).set i none).getD j none = _
          rw [List.getD_eq_getElem?_getD, List.getElem?_set_ne (fun hh => hne hh.symm),
            List.getElem?_set_ne (fun hh => hjli hh.symm), ← List.getD_eq_getElem?_getD]
          rfl
        rcases hfj : s.find j with _ | e
        · rw [get, hfind, hfj, get, hfj]
          rfl
        · obtain ⟨u, hu⟩ := hw.1 j e hfj
          have hed : e ≠ d := fun hh => by
            rw [hh] at hu
            exact hne (pair_eq_parts (hu.symm.trans hwd)).1
          have heL : e ≠ s.dense.length - 1 := fun hh => by
            rw [hh] at hu
            exact hjli (pair_eq_parts (hu.symm.trans hLd)).1
          have helt : e < s.dense.length - 1 := by
            have := lt_of_getElem?_some hu
            omega
          rw [get, get, hfind, hfj, Option.some_bind, Option.some_bind, hdense,
            List.getElem?_dropLast, List.length_set, if_pos helt,
            List.getElem?_set_ne (fun hh => hed hh.symm)]

theorem WF_remove {s : SparseSet α} (hw : s.WF) (i : Nat) : (s.remove i).WF := by
  rcases h : s.find i with _ | d
  · rw [remove_eq_of_find_none h]
    exact hw
  · obtain ⟨w, hwd⟩ := hw.1 i d h
    rcases hlast : s.dense.getLast? with _ | ⟨li, lv⟩
    · rw [List.getLast?_eq_none_iff] at hlast
      rw [hlast] at hwd
      simp at hwd
    · have hrem : s.remove i = ⟨(s.sparse.set li (some d)).set i none,
          (s.dense.set d (li, lv)).dropLast⟩ := by
        simp only [remove, h, hlast]
      have hLd : s.dense[s.dense.length - 1]? = some (li, lv) := by
        rw [← List.getLast?_eq_getElem?]
        exact hlast
      have hfli : s.find li = some (s.dense.length - 1) := hw.2 _ _ _ hLd
      have hdl : d < s.dense.length := lt_of_getElem?_some hwd
      have hisp : i < s.sparse.length := find_lt_length h
      have hlisp : li < s.sparse.length := find_lt_length hfli
      have hdense : ∀ e, (s.remove i).dense[e]? =
          if e < s.dense.length - 1 then (s.dense.set d (li, lv))[e]? else none := by
        intro e
        rw [hrem]
        show ((s.dense.set d (li, lv)).dropLast)[e]? = _
        rw [List.getElem?_dropLast, List.length_set]
      have hfind_i : (s.remove i).find i = none := find_remove_self hw i
      have hfind_li : li ≠ i → (s.remove i).find li = some d := by
        intro hlii
        rw [hrem]
        show ((s.sparse.set li (some d)).set i none).getD li none = some d
        rw [List.getD_eq_getElem?_getD, List.getElem?_set_ne (fun hh => hlii hh.symm),
          List.getElem?_set_self (by simpa using hlisp)]
        rfl
      have hfind_other : ∀ j, j ≠ i → j ≠ li → (s.remove i).find j = s.find j := by
        intro j hji hjli
        rw [hrem]
        show ((s.sparse.set li (some d)).set i none).getD j none = _
        rw [List.getD_eq_getElem?_getD, List.getElem?_set_ne (fun hh => hji hh.symm),
          List.getElem?_set_ne (fun hh => hjli hh.symm), ← List.getD_eq_getElem?_getD]
        rfl
      constructor
      · intro j e hje
        have hji : j ≠ i := fun hh => by
          rw [hh, hfind_i] at hje
          exact Option.noConfusion hje
        by_cases hjli : j = li
        · have hlii : li ≠ i := hjli ▸ hji
          rw [hjli, hfind_li hlii] at hje
          have he : e = d := (Option.some.inj hje).symm
          have hdL : d ≠ s.dense.length - 1 := fun hh => by
            rw [hh] at hwd
            exact hlii (pair_eq_parts (hLd.symm.trans hwd)).1
          refine ⟨lv, ?_⟩
          rw [hjli, he, hdense, if_pos (by omega), List.getElem?_set_self hdl]
        · rw [hfind_other j hji hjli] at hje
          obtain ⟨u, hu⟩ := hw.1 j e hje
          have hed : e ≠ d := fun hh => by
            rw [hh] at hu
            exact hji (pair_eq_parts (hu.symm.trans hwd)).1
          have heL : e ≠ s.dense.length - 1 := fun hh => by
            rw [hh] at hu
            exact hjli (pair_eq_parts (hu.symm.trans hLd)).1
          have helt : e < s.dense.length - 1 := by
            have := lt_of_getElem?_some hu
            omega
          refine ⟨u, ?_⟩
          rw [hdense, if_pos helt, List.getElem?_set_ne (fun hh => hed hh.symm), hu]
      · intro e j u hju
        rw [hdense] at hju
        by_cases helt : e < s.dense.length - 1
        · rw [if_pos helt] at hju
          by_cases hed : e = d
          · rw [hed, List.getElem?_set_self hdl] at hju
            obtain ⟨hlij, _⟩ := pair_eq_parts hju
            have hlii : li ≠ i := fun hh => by
              rw [hh] at hfli
              have hdd : d = s.dense.length - 1 := Option.some.inj (h.symm.trans hfli)
              omega
            rw [← hlij, hfind_li hlii, hed]
          · rw [List.getElem?_set_ne (fun hh => hed hh.symm)] at hju
            have hj : s.find j = some e := hw.2 e j u hju
            have hji : j ≠ i := fun hh => by
              rw [hh, h] at hj
              exact hed (Option.some.inj hj).symm
            have hjli : j ≠ li := fun hh => by
              rw [hh, hfli] at hj
              have : s.dense.length - 1 = e := Option.some.inj hj
              omega
            rw [hfind_other j hji hjli]
            exact hj
        · rw [if_neg helt] at hju
          exact Option.noConfusion hju

theorem modify_eq_of_find_none {s : SparseSet α} {i : Nat} {f : α → α}
    (h : s.find i = none) : s.modify i f = s := by
  simp only [modify, h]

theorem get_modify_self (s : SparseSet α) (i : Nat) (f : α → α) :
    (s.modify i f).get i = (s.get i).map f := by
  rcases h : s.find i with _ | d
  · rw [modify_eq_of_find_none h, get, h]
    rfl
  · rcases hd : s.dense[d]? with _ | ⟨j, v⟩
    · have hmod : s.modify i f = s := by
        simp only [modify, h, hd]
      rw [hmod, get, h, Option.some_bind, hd]
      rfl
    · have hmod : s.modify i f = ⟨s.sparse, s.dense.set d (j, f v)⟩ := by
        simp only [modify, h, hd]
      have hfind : (s.modify i f).find i = some d := by
        rw [hmod]
        exact h
      have hdense : (s.modify i f).dense = s.dense.set d (j, f v) := by
        rw [hmod]
      rw [get, hfind, Option.some_bind, hdense,
        List.getElem?_set_self (lt_of_getElem?_some hd), get, h, Option.some_bind, hd]
      rfl

theorem get_modify_ne {s : SparseSet α} (hw : s.WF) {i j : Nat} (hne : j ≠ i)
    (f : α → α) : (s.modify i f).get j = s.get j := by
  rcases h : s.find i with _ | d
  · rw [modify_eq_of_find_none h]
  · rcases hd : s.dense[d]? with _ | ⟨i0, v⟩
    · have hmod : s.modify i f = s := by
        simp only [modify, h, hd]
      rw [hmod]
    · obtain ⟨w, hwd⟩ := hw.1 i d h
      obtain ⟨hi0, hvw⟩ := pair_eq_parts (hd.symm.trans hwd)
      have hmod : s.modify i f = ⟨s.sparse, s.dense.set d (i0, f v)⟩ := by
        simp only [modify, h, hd]
      have hfind : (s.modify i f).find j = s.find j := by
        rw [hmod]
        rfl
      have hdense : (s.modify i f).dense = s.dense.set d (i0, f v) := by
        rw [hmod]
      rcases hfj : s.find j with _ | e
      · rw [get, hfind, hfj, get, hfj]
        rfl
      · obtain ⟨u, hu⟩ := hw.1 j e hfj
        have hed : e ≠ d := fun hh => by
          rw [hh] at hu
          exact hne (pair_eq_parts (hu.symm.trans hwd)).1
        rw [get, get, hfind, hfj, Option.some_bind, Option.some_bind, hdense,
          List.getElem?_set_ne (fun hh => hed hh.symm)]

theorem WF_modify {s : SparseSet α} (hw : s.WF) (i : Nat) (f : α → α) :
    (s.modify i f).WF := by
  rcases h : s.find i with _ | d
  · rw [modify_eq_of_find_none h]
    exact hw
  · rcases hd : s.dense[d]? with _ | ⟨i0, v⟩
    · have hmod : s.modify i f = s := by
        simp only [modify, h, hd]
      rw [hmod]
      exact hw
    · obtain ⟨w, hwd⟩ := hw.1 i d h
      obtain ⟨hi0, hvw⟩ := pair_eq_parts (hd.symm.trans hwd)
      have hmod : s.modify i f = ⟨s.sparse, s.dense.set d (i0, f v)⟩ := by
        simp only [modify, h, hd]
      have hfind : ∀ j, (s.modify i f).find j = s.find j := by
        intro j
        rw [hmod]
        rfl
      have hdense : (s.modify i f).dense = s.dense.set d (i0, f v) := by
        rw [hmod]
      have hdl : d < s.dense.length := lt_of_getElem?_some hd
      constructor
      · intro j e hje
        rw [hfind] at hje
        by_cases hed : e = d
        · have hji : j = i := find_inj hw hje (hed ▸ h)
          refine ⟨f v, ?_⟩
          rw [hdense, hed, List.getElem?_set_self hdl, hji, ← hi0]
        · obtain ⟨u, hu⟩ := hw.1 j e hje
          refine ⟨u, ?_⟩
          rw [hdense, List.getElem?_set_ne (fun hh => hed hh.symm), hu]
      · intro e j u hju
        rw [hdense] at hju
        rw [hfind]
        by_cases hed : e = d
        · rw [hed, List.getElem?_set_self hdl] at hju
          obtain ⟨hj, _⟩ := pair_eq_parts hju
          rw [← hj, hi0, hed]
          exact h
        · rw [List.getElem?_set_ne (fun hh => hed hh.symm)] at hju
          exact hw.2 e j u hju

theorem get_eq_none_iff {s : SparseSet α} (hw : s.WF) (i : Nat) :
    s.get i = none ↔ s.find i = none := by
  constructor
  · intro h
    rcases hfe : s.find i with _ | d
    · rfl
    · obtain ⟨w, hwd⟩ := hw.1 i d hfe
      rw [get, hfe, Option.some_bind, hwd, Option.map_some'] at h
      exact Option.noConfusion h
  · intro h
    rw [get, h]
    rfl

end SparseSet

/-! Registry layer: `ComponentStorage` from `crates/async_ecs/src/component.rs`. -/

/-- Bit pattern of an `f32` field. The storage core stores and returns these
values without interpreting them, so the pattern is a faithful representation. -/
abbrev F32 := Nat

/-- Component type `Position` from `component.rs`. -/
structure Position where
  x : F32
  y : F32
deriving DecidableEq

/-- Component type `Velocity` from `component.rs`. -/
structure Velocity where
  x : F32
  y : F32
deriving DecidableEq

/-- Runtime type identity (`TypeId`) of the component types that
`component.rs` declares as `DynamicComponent`. -/
inductive CompTy
  | position
  | velocity
deriving DecidableEq

/-- Concrete Rust type denoted by a type identity. -/
def CompTy.interp : CompTy → Type
  | .position => Position
  | .velocity => Velocity

/-- Type-erased component (`Box<dyn DynamicComponent>`): the concrete value
together with its runtime type, which the trait object's vtable records. -/
structure ErasedComp where
  ty : CompTy
  val : ty.interp

/-- View of an erased component at type `t`, modelling the guard dereference.
The source performs it as a raw pointer cast; here it is a tag check, and the
registry invariant proves the check never fails on a successful lookup. -/
def downcast (t : CompTy) (er : ErasedComp) : Option t.interp :=
  if h : er.ty = t then some (h ▸ er.val) else none

theorem downcast_mk (t : CompTy) (v : t.interp) : downcast t ⟨t, v⟩ = some v :=
  dif_pos rfl

/-- Component Storage Registry (`ComponentStorage`): the `DashMap` from
`TypeId` to sparse set becomes an association list with unique keys. -/
structure ComponentStorage where
  storages : List (CompTy × SparseSet ErasedComp)

/-- Entry list after applying `f` to every sparse set stored under key `t`
(in a well-formed store there is at most one). -/
def updateList (l : List (CompTy × SparseSet ErasedComp)) (t : CompTy)
    (f : SparseSet ErasedComp → SparseSet ErasedComp) : List (CompTy × SparseSet ErasedComp) :=
  l.map fun p => if p.1 = t then (p.1, f p.2) else p

namespace ComponentStorage

/-- Mirrors `ComponentStorage::new`. -/
def new : ComponentStorage := ⟨[]⟩

/-- Mirrors `self.storages.get(&type_id)`. -/
def findStorage (cs : ComponentStorage) (t : CompTy) : Option (SparseSet ErasedComp) :=
  (cs.storages.find? fun p => decide (p.1 = t)).map Prod.snd

/-- Mirrors `ComponentStorage::insert`: `entry(type_id).or_insert_with(SparseSet::new)`
followed by the sparse set's `insert` of the boxed component. -/
def insert (cs : ComponentStorage) (t : CompTy) (e : Nat) (v : t.interp) :
    ComponentStorage :=
  match findStorage cs t with
  | some _ => ⟨updateList cs.storages t fun s => s.insert e ⟨t, v⟩⟩
  | none => ⟨cs.storages ++ [(t, SparseSet.new.insert e ⟨t, v⟩)]⟩

/-- ErasedComp value located by `ComponentStorage::get` before the guard wraps it. -/
def rawGet (cs : ComponentStorage) (t : CompTy) (e : Nat) : Option ErasedComp :=
  (findStorage cs t).bind fun s => s.get e

/-- Mirrors `ComponentStorage::get` composed with the read guard's `Deref`. -/
def get (cs : ComponentStorage) (t : CompTy) (e : Nat) : Option t.interp :=
  (rawGet cs t e).bind (downcast t)

/-- ErasedComp value located by `ComponentStorage::get_mut`; the lookup chain in
the source is textually the same as `get`, only the lock kind differs. -/
def rawGetMut (cs : ComponentStorage) (t : CompTy) (e : Nat) : Option ErasedComp :=
  (findStorage cs t).bind fun s => s.get e

/-- Mirrors `ComponentStorage::get_mut` composed with the guard's `Deref`. -/
def get_mut (cs : ComponentStorage) (t : CompTy) (e : Nat) : Option t.interp :=
  (rawGetMut cs t e).bind (downcast t)

/-- Mirrors `ComponentStorage::remove`: `if let Some(mut storage) = get_mut(&type_id)`
then the sparse set's `remove`; no-op when the type has no set. -/
def remove (cs : ComponentStorage) (t : CompTy) (e : Nat) : ComponentStorage :=
  match findStorage cs t with
  | some _ => ⟨updateList cs.storages t fun s => s.remove e⟩
  | none => cs

/-- Update of an erased slot value by a typed field mutation `f`, as performed
through a `ComponentRefMut`'s `DerefMut`. -/
def mutFn (t : CompTy) (f : t.interp → t.interp) (er : ErasedComp) : ErasedComp :=
  match downcast t er with
  | some v => ⟨t, f v⟩
  | none => er

/-- Field mutation performed through a `ComponentRefMut` obtained from
`get_mut`: the slot's value is replaced by `f` of its typed view. -/
def mutate (cs : ComponentStorage) (t : CompTy) (e : Nat)
    (f : t.interp → t.interp) : ComponentStorage :=
  ⟨updateList cs.storages t fun s => s.modify e (mutFn t f)⟩

/-- Type keys currently registered (the `DashMap`'s key set). -/
def keys (cs : ComponentStorage) : List CompTy := cs.storages.map Prod.fst

/-- Invariants of every reachable registry: one sparse set per type identity,
each sparse set well-formed, and every stored value tagged with the key it is
stored under (`insert` stores a `T` under `TypeId::of::<T>()`). -/
def WFStore (cs : ComponentStorage) : Prop :=
  (keys cs).Nodup ∧
  ∀ p ∈ cs.storages, p.2.WF ∧ ∀ e er, p.2.get e = some er → er.ty = p.1

theorem WFStore_new : WFStore new := by
  constructor
  · simp [keys, new]
  · intro p hp
    simp [new] at hp

theorem findStorage_mem {cs : ComponentStorage} {t : CompTy} {s : SparseSet ErasedComp}
    (h : findStorage cs t = some s) : (t, s) ∈ cs.storages := by
  rw [findStorage] at h
  rcases hf : cs.storages.find? (fun p => decide (p.1 = t)) with _ | p
  · rw [hf] at h
    exact Option.noConfusion h
  · rw [hf, Option.map_some'] at h
    have hps := List.find?_some hf
    have hp1 : p.1 = t := by simpa using hps
    have hp2 : p.2 = s := Option.some.inj h
    have hp : p = (t, s) := by
      rw [← hp1, ← hp2]
    rw [← hp]
    exact List.mem_of_find?_eq_some hf

theorem findStorage_eq_none {cs : ComponentStorage} {t : CompTy}
    (h : findStorage cs t = none) : ∀ p ∈ cs.storages, p.1 ≠ t := by
  intro p hp
  rw [findStorage] at h
  rcases hf : cs.storages.find? (fun p => decide (p.1 = t)) with _ | q
  · have := List.find?_eq_none.mp hf p hp
    simpa using this
  · rw [hf, Option.map_some'] at h
    exact Option.noConfusion h

theorem find?_updateList_self (l : List (CompTy × SparseSet ErasedComp)) (t : CompTy)
    (f : SparseSet ErasedComp → SparseSet ErasedComp) :
    ((updateList l t f).find? fun p => decide (p.1 = t)) =
      (l.find? fun p => decide (p.1 = t)).map fun p => (p.1, f p.2) := by
  induction l with
  | nil => rfl
  | cons p rest ih =>
    rw [updateList, List.map_cons]
    by_cases hp : p.1 = t
    · rw [if_pos hp, List.find?_cons_of_pos _ (by simpa using hp),
        List.find?_cons_of_pos _ (by simpa using hp), Option.map_some']
    · rw [if_neg hp, List.find?_cons_of_neg _ (by simpa using hp),
        List.find?_cons_of_neg _ (by simpa using hp)]
      exact ih

theorem findStorage_updateList_self (l : List (CompTy × SparseSet ErasedComp))
    (t : CompTy) (f : SparseSet ErasedComp → SparseSet ErasedComp) :
    findStorage ⟨updateList l t f⟩ t = (findStorage ⟨l⟩ t).map f := by
  show ((updateList l t f).find? fun p => decide (p.1 = t)).map Prod.snd =
    ((l.find? fun p => decide (p.1 = t)).map Prod.snd).map f
  rw [find?_updateList_self]
  cases l.find? fun p => decide (p.1 = t) <;> rfl

theorem find?_updateList_ne (l : List (CompTy × SparseSet ErasedComp))
    {t t' : CompTy} (hne : t' ≠ t) (f : SparseSet ErasedComp → SparseSet ErasedComp) :
    ((updateList l t f).find? fun p => decide (p.1 = t')) =
      l.find? fun p => decide (p.1 = t') := by
  induction l with
  | nil => rfl
  | cons p rest ih =>
    rw [updateList, List.map_cons]
    by_cases hp : p.1 = t'
    · have hpt : ¬p.1 = t := fun hh => hne (hp.symm.trans hh)
      rw [if_neg hpt, List.find?_cons_of_pos _ (by simpa using hp),
        List.find?_cons_of_pos _ (by simpa using hp)]
    · by_cases hpt : p.1 = t
      · rw [if_pos hpt, List.find?_cons_of_neg _ (by simpa using hp),
          List.find?_cons_of_neg _ (by simpa using hp)]
        exact ih
      · rw [if_neg hpt, List.find?_cons_of_neg _ (by simpa using hp),
          List.find?_cons_of_neg _ (by simpa using hp)]
        exact ih

theorem findStorage_updateList_ne (l : List (CompTy × SparseSet ErasedComp))
    {t t' : CompTy} (hne : t' ≠ t) (f : SparseSet ErasedComp → SparseSet ErasedComp) :
    findStorage ⟨updateList l t f⟩ t' = findStorage ⟨l⟩ t' := by
  rw [findStorage, findStorage]
  show ((updateList l t f).find? _).map Prod.snd = _
  rw [find?_updateList_ne l hne]

theorem find?_storages_eq_none {cs : ComponentStorage} {t : CompTy}
    (h : findStorage cs t = none) :
    cs.storages.find? (fun p => decide (p.1 = t)) = none := by
  rw [findStorage] at h
  rcases hf : cs.storages.find? (fun p => decide (p.1 = t)) with _ | q
  · exact hf
  · rw [hf, Option.map_some'] at h
    exact Option.noConfusion h

theorem findStorage_append_self {cs : ComponentStorage} {t : CompTy}
    (h : findStorage cs t = none) (s0 : SparseSet ErasedComp) :
    findStorage ⟨cs.storages ++ [(t, s0)]⟩ t = some s0 := by
  rw [findStorage]
  show ((cs.storages ++ [(t, s0)]).find? _).map Prod.snd = _
  rw [List.find?_append, find?_storages_eq_none h, Option.none_or,
    List.find?_cons_of_pos _ (by simp)]
  rfl

theorem findStorage_append_ne (cs : ComponentStorage) {t t' : CompTy}
    (hne : t' ≠ t) (s0 : SparseSet ErasedComp) :
    findStorage ⟨cs.storages ++ [(t, s0)]⟩ t' = findStorage cs t' := by
  rw [findStorage, findStorage]
  show ((cs.storages ++ [(t, s0)]).find? _).map Prod.snd = _
  rw [List.find?_append]
  have h1 : [(t, s0)].find? (fun p => decide (p.1 = t')) = none := by
    rw [List.find?_cons_of_neg _ (by simpa using fun hh : t = t' => hne hh.symm)]
    rfl
  rw [h1, Option.or_none]

theorem keys_updateList (l : List (CompTy × SparseSet ErasedComp)) (t : CompTy)
    (f : SparseSet ErasedComp → SparseSet ErasedComp) :
    List.map Prod.fst (updateList l t f) = List.map Prod.fst l := by
  rw [updateList, List.map_map]
  refine List.map_congr_left ?_
  intro p hp
  by_cases h : p.1 = t
  · simp [h]
  · simp [h]

theorem mem_updateList {l : List (CompTy × SparseSet ErasedComp)} {t : CompTy}
    {f : SparseSet ErasedComp → SparseSet ErasedComp} {q : CompTy × SparseSet ErasedComp}
    (hq : q ∈ updateList l t f) :
    ∃ p ∈ l, q = if p.1 = t then (p.1, f p.2) else p := by
  obtain ⟨p, hp, hpq⟩ := List.mem_map.mp hq
  exact ⟨p, hp, hpq.symm⟩

theorem findStorage_eta (cs : ComponentStorage) (t : CompTy) :
    findStorage ⟨cs.storages⟩ t = findStorage cs t := rfl

theorem WF_of_findStorage {cs : ComponentStorage} (hw : WFStore cs) {t : CompTy}
    {s : SparseSet ErasedComp} (h : findStorage cs t = some s) :
    s.WF ∧ ∀ e er, s.get e = some er → er.ty = t :=
  hw.2 (t, s) (findStorage_mem h)

theorem updateList_updateList (l : List (CompTy × SparseSet ErasedComp)) (t : CompTy)
    (f g : SparseSet ErasedComp → SparseSet ErasedComp) :
    updateList (updateList l t f) t g = updateList l t (fun s => g (f s)) := by
  rw [updateList, updateList, updateList, List.map_map]
  refine List.map_congr_left ?_
  intro p hp
  by_cases h : p.1 = t
  · simp [h]
  · simp [h]

theorem updateList_congr {l : List (CompTy × SparseSet ErasedComp)} {t : CompTy}
    {f g : SparseSet ErasedComp → SparseSet ErasedComp}
    (h : ∀ p ∈ l, p.1 = t → f p.2 = g p.2) :
    updateList l t f = updateList l t g := by
  rw [updateList, updateList]
  refine List.map_congr_left ?_
  intro p hp
  by_cases hpt : p.1 = t
  · rw [if_pos hpt, if_pos hpt, h p hp hpt]
  · rw [if_neg hpt, if_neg hpt]

theorem WFStore_insert {cs : ComponentStorage} (hw : WFStore cs) (t : CompTy)
    (e : Nat) (v : t.interp) : WFStore (insert cs t e v) := by
  rcases hfs : findStorage cs t with _ | s
  · have hins : insert cs t e v = ⟨cs.storages ++ [(t, SparseSet.new.insert e ⟨t, v⟩)]⟩ := by
      simp only [insert, hfs]
    rw [hins]
    constructor
    · show (List.map Prod.fst (cs.storages ++ [(t, SparseSet.new.insert e ⟨t, v⟩)])).Nodup
      rw [List.map_append, List.nodup_append]
      refine ⟨hw.1, by simp, ?_⟩
      intro a ha hb
      obtain ⟨q, hq, hqa⟩ := List.mem_map.mp ha
      have hbt : a = t := by simpa using hb
      exact findStorage_eq_none hfs q hq (hqa.trans hbt)
    · intro p hp
      have hp2 : p ∈ cs.storages ++ [(t, SparseSet.new.insert e (⟨t, v⟩ : ErasedComp))] := hp
      rw [List.mem_append] at hp2
      rcases hp2 with hp2 | hp2
      · exact hw.2 p hp2
      · have hpe : p = (t, SparseSet.new.insert e (⟨t, v⟩ : ErasedComp)) := by simpa using hp2
        subst hpe
        refine ⟨SparseSet.WF_insert SparseSet.WF_new e ⟨t, v⟩, ?_⟩
        intro e2 er hge
        have hge2 : (SparseSet.new.insert e (⟨t, v⟩ : ErasedComp)).get e2 = some er := hge
        show er.ty = t
        by_cases he : e2 = e
        · rw [he, SparseSet.get_insert_self SparseSet.WF_new e (⟨t, v⟩ : ErasedComp)] at hge2
          have her : er = ⟨t, v⟩ := (Option.some.inj hge2).symm
          rw [her]
        · rw [SparseSet.get_insert_ne SparseSet.WF_new he (⟨t, v⟩ : ErasedComp),
            SparseSet.get_new] at hge2
          exact Option.noConfusion hge2
  · have hins : insert cs t e v = ⟨updateList cs.storages t fun s2 => s2.insert e ⟨t, v⟩⟩ := by
      simp only [insert, hfs]
    rw [hins]
    constructor
    · show (List.map Prod.fst (updateList cs.storages t
        fun s2 => s2.insert e (⟨t, v⟩ : ErasedComp))).Nodup
      rw [keys_updateList]
      exact hw.1
    · intro p hp
      have hp2 : p ∈ updateList cs.storages t
          (fun s2 => s2.insert e (⟨t, v⟩ : ErasedComp)) := hp
      obtain ⟨q, hq, hpq⟩ := mem_updateList hp2
      obtain ⟨hqWF, hqTy⟩ := hw.2 q hq
      by_cases hqt : q.1 = t
      · rw [if_pos hqt] at hpq
        subst hpq
        refine ⟨SparseSet.WF_insert hqWF e ⟨t, v⟩, ?_⟩
        intro e2 er hge
        have hge2 : (q.2.insert e (⟨t, v⟩ : ErasedComp)).get e2 = some er := hge
        show er.ty = q.1
        by_cases he : e2 = e
        · rw [he, SparseSet.get_insert_self hqWF e (⟨t, v⟩ : ErasedComp)] at hge2
          have her : er = ⟨t, v⟩ := (Option.some.inj hge2).symm
          rw [her]
          exact hqt.symm
        · rw [SparseSet.get_insert_ne hqWF he (⟨t, v⟩ : ErasedComp)] at hge2
          exact hqTy e2 er hge2
      · rw [if_neg hqt] at hpq
        rw [hpq]
        exact hw.2 q hq

theorem WFStore_remove {cs : ComponentStorage} (hw : WFStore cs) (t : CompTy)
    (e : Nat) : WFStore (remove cs t e) := by
  rcases hfs : findStorage cs t with _ | s
  · have hrem : remove cs t e = cs := by
      simp only [remove, hfs]
    rw [hrem]
    exact hw
  · have hrem : remove cs t e = ⟨updateList cs.storages t fun s2 => s2.remove e⟩ := by
      simp only [remove, hfs]
    rw [hrem]
    constructor
    · show (List.map Prod.fst (updateList cs.storages t fun s2 => s2.remove e)).Nodup
      rw [keys_updateList]
      exact hw.1
    · intro p hp
      have hp2 : p ∈ updateList cs.storages t (fun s2 => s2.remove e) := hp
      obtain ⟨q, hq, hpq⟩ := mem_updateList hp2
      obtain ⟨hqWF, hqTy⟩ := hw.2 q hq
      by_cases hqt : q.1 = t
      · rw [if_pos hqt] at hpq
        subst hpq
        refine ⟨SparseSet.WF_remove hqWF e, ?_⟩
        intro e2 er hge
        have hge2 : (q.2.remove e).get e2 = some er := hge
        show er.ty = q.1
        by_cases he : e2 = e
        · rw [he, SparseSet.get_remove_self hqWF e] at hge2
          exact Option.noConfusion hge2
        · rw [SparseSet.get_remove_ne hqWF he] at hge2
          exact hqTy e2 er hge2
      · rw [if_neg hqt] at hpq
        rw [hpq]
        exact hw.2 q hq

theorem WFStore_mutate {cs : ComponentStorage} (hw : WFStore cs) (t : CompTy)
    (e : Nat) (f : t.interp → t.interp) : WFStore (mutate cs t e f) := by
  rw [mutate]
  constructor
  · show (List.map Prod.fst (updateList cs.storages t
      fun s2 => s2.modify e (mutFn t f))).Nodup
    rw [keys_updateList]
    exact hw.1
  · intro p hp
    have hp2 : p ∈ updateList cs.storages t (fun s2 => s2.modify e (mutFn t f)) := hp
    obtain ⟨q, hq, hpq⟩ := mem_updateList hp2
    obtain ⟨hqWF, hqTy⟩ := hw.2 q hq
    by_cases hqt : q.1 = t
    · rw [if_pos hqt] at hpq
      subst hpq
      refine ⟨SparseSet.WF_modify hqWF e _, ?_⟩
      intro e2 er hge
      have hge2 : (q.2.modify e (mutFn t f)).get e2 = some er := hge
      show er.ty = q.1
      by_cases he : e2 = e
      · rw [he, SparseSet.get_modify_self] at hge2
        obtain ⟨er0, h0, hg0⟩ := Option.map_eq_some'.mp hge2
        have herr : er = mutFn t f er0 := hg0.symm
        rcases hdc : downcast t er0 with _ | w
        · rw [mutFn, hdc] at herr
          rw [herr]
          exact hqTy e er0 h0
        · rw [mutFn, hdc] at herr
          rw [herr]
          exact hqt.symm
      · rw [SparseSet.get_modify_ne hqWF he] at hge2
        exact hqTy e2 er hge2
    · rw [if_neg hqt] at hpq
      rw [hpq]
      exact hw.2 q hq

theorem get_mut_eq_get (cs : ComponentStorage) (t : CompTy) (e : Nat) :
    get_mut cs t e = get cs t e := rfl

theorem get_insert_store {cs : ComponentStorage} (hw : WFStore cs) (t : CompTy)
    (e : Nat) (v : t.interp) : get (insert cs t e v) t e = some v := by
  rcases hfs : findStorage cs t with _ | s
  · have hins : insert cs t e v = ⟨cs.storages ++ [(t, SparseSet.new.insert e ⟨t, v⟩)]⟩ := by
      simp only [insert, hfs]
    rw [get, rawGet, hins, findStorage_append_self hfs, Option.some_bind,
      SparseSet.get_insert_self SparseSet.WF_new e (⟨t, v⟩ : ErasedComp),
      Option.some_bind, downcast_mk]
  · have hins : insert cs t e v = ⟨updateList cs.storages t fun s2 => s2.insert e ⟨t, v⟩⟩ := by
      simp only [insert, hfs]
    have hsWF := (WF_of_findStorage hw hfs).1
    rw [get, rawGet, hins, findStorage_updateList_self, findStorage_eta, hfs,
      Option.map_some', Option.some_bind,
      SparseSet.get_insert_self hsWF e (⟨t, v⟩ : ErasedComp),
      Option.some_bind, downcast_mk]

theorem get_insert_store_ne {cs : ComponentStorage} (hw : WFStore cs) (t : CompTy)
    {e1 e2 : Nat} (hne : e2 ≠ e1) (v : t.interp) :
    get (insert cs t e1 v) t e2 = get cs t e2 := by
  rcases hfs : findStorage cs t with _ | s
  · have hins : insert cs t e1 v = ⟨cs.storages ++ [(t, SparseSet.new.insert e1 ⟨t, v⟩)]⟩ := by
      simp only [insert, hfs]
    rw [get, rawGet, hins, findStorage_append_self hfs, Option.some_bind,
      SparseSet.get_insert_ne SparseSet.WF_new hne (⟨t, v⟩ : ErasedComp),
      SparseSet.get_new, get, rawGet, hfs]
    rfl
  · have hins : insert cs t e1 v = ⟨updateList cs.storages t fun s2 => s2.insert e1 ⟨t, v⟩⟩ := by
      simp only [insert, hfs]
    have hsWF := (WF_of_findStorage hw hfs).1
    rw [get, rawGet, hins, findStorage_updateList_self, findStorage_eta, hfs,
      Option.map_some', Option.some_bind,
      SparseSet.get_insert_ne hsWF hne (⟨t, v⟩ : ErasedComp),
      get, rawGet, hfs, Option.some_bind]

theorem get_remove_store_self {cs : ComponentStorage} (hw : WFStore cs) (t : CompTy)
    (e : Nat) : get (remove cs t e) t e = none := by
  rcases hfs : findStorage cs t with _ | s
  · have hrem : remove cs t e = cs := by
      simp only [remove, hfs]
    rw [hrem, get, rawGet, hfs]
    rfl
  · have hrem : remove cs t e = ⟨updateList cs.storages t fun s2 => s2.remove e⟩ := by
      simp only [remove, hfs]
    have hsWF := (WF_of_findStorage hw hfs).1
    rw [get, rawGet, hrem, findStorage_updateList_self, findStorage_eta, hfs,
      Option.map_some', Option.some_bind, SparseSet.get_remove_self hsWF]
    rfl

theorem get_remove_store_ne {cs : ComponentStorage} (hw : WFStore cs) (t : CompTy)
    {e1 e2 : Nat} (hne : e2 ≠ e1) :
    get (remove cs t e1) t e2 = get cs t e2 := by
  rcases hfs : findStorage cs t with _ | s
  · have hrem : remove cs t e1 = cs := by
      simp only [remove, hfs]
    rw [hrem]
  · have hrem : remove cs t e1 = ⟨updateList cs.storages t fun s2 => s2.remove e1⟩ := by
      simp only [remove, hfs]
    have hsWF := (WF_of_findStorage hw hfs).1
    rw [get, rawGet, hrem, findStorage_updateList_self, findStorage_eta, hfs,
      Option.map_some', Option.some_bind, SparseSet.get_remove_ne hsWF hne,
      get, rawGet, hfs, Option.some_bind]

theorem remove_eq_updateList {cs : ComponentStorage} {t : CompTy}
    {s : SparseSet ErasedComp} (hfs : findStorage cs t = some s) (e : Nat) :
    remove cs t e = ⟨updateList cs.storages t fun s2 => s2.remove e⟩ := by
  simp only [remove, hfs]

theorem remove_remove_store {cs : ComponentStorage} (hw : WFStore cs) (t : CompTy)
    (e : Nat) : remove (remove cs t e) t e = remove cs t e := by
  rcases hfs : findStorage cs t with _ | s
  · have hrem : remove cs t e = cs := by
      simp only [remove, hfs]
    rw [hrem]
    exact hrem
  · have hrem : remove cs t e = ⟨updateList cs.storages t fun s2 => s2.remove e⟩ := by
      simp only [remove, hfs]
    have hfs2 : findStorage (remove cs t e) t = some (s.remove e) := by
      rw [hrem, findStorage_updateList_self, findStorage_eta, hfs, Option.map_some']
    have houter : remove (remove cs t e) t e =
        ⟨updateList (remove cs t e).storages t fun s2 => s2.remove e⟩ :=
      remove_eq_updateList hfs2 e
    rw [houter, hrem]
    show (⟨updateList (updateList cs.storages t fun s2 => s2.remove e) t
        fun s2 => s2.remove e⟩ : ComponentStorage) =
      ⟨updateList cs.storages t fun s2 => s2.remove e⟩
    rw [updateList_updateList]
    congr 1
    refine updateList_congr ?_
    intro p hp hpt
    exact SparseSet.remove_remove (hw.2 p hp).1 e

theorem bind_downcast_eq_none {s : SparseSet ErasedComp} {t : CompTy}
    (hTy : ∀ e er, s.get e = some er → er.ty = t) (e : Nat) :
    ((s.get e).bind (downcast t) = none) ↔ s.get e = none := by
  rcases hge : s.get e with _ | er
  · simp
  · have hty : er.ty = t := hTy e er hge
    rcases er with ⟨t2, w⟩
    have ht2 : t2 = t := hty
    subst ht2
    rw [Option.some_bind, downcast_mk]
    constructor
    · intro hh
      exact Option.noConfusion hh
    · intro hh
      exact Option.noConfusion hh

theorem get_none_iff {cs : ComponentStorage} (hw : WFStore cs) (t : CompTy) (e : Nat) :
    get cs t e = none ↔ findStorage cs t = none ∨
      ∃ s, findStorage cs t = some s ∧ s.find e = none := by
  rcases hfs : findStorage cs t with _ | s
  · constructor
    · intro _
      exact Or.inl rfl
    · intro _
      rw [get, rawGet, hfs]
      rfl
  · obtain ⟨hsWF, hsTy⟩ := WF_of_findStorage hw hfs
    rw [get, rawGet, hfs, Option.some_bind, bind_downcast_eq_none hsTy,
      SparseSet.get_eq_none_iff hsWF]
    constructor
    · intro h
      exact Or.inr ⟨s, rfl, h⟩
    · intro h
      rcases h with h | ⟨s2, hs2, hf2⟩
      · exact Option.noConfusion h
      · rw [Option.some.inj hs2]
        exact hf2

theorem mutate_get {cs : ComponentStorage} (hw : WFStore cs) {t : CompTy} {e : Nat}
    {v : t.interp} (f : t.interp → t.interp)
    (h : get_mut cs t e = some v) : get (mutate cs t e f) t e = some (f v) := by
  rw [get_mut, rawGetMut] at h
  rcases hfs : findStorage cs t with _ | s
  · rw [hfs] at h
    exact absurd h (by simp)
  · rw [hfs, Option.some_bind] at h
    obtain ⟨hsWF, hsTy⟩ := WF_of_findStorage hw hfs
    rcases hge : s.get e with _ | er
    · rw [hge] at h
      exact absurd h (by simp)
    · rw [hge, Option.some_bind] at h
      have hty : er.ty = t := hsTy e er hge
      rcases er with ⟨t2, w⟩
      have ht2 : t2 = t := hty
      subst ht2
      rw [downcast_mk] at h
      have hv : w = v := Option.some.inj h
      subst hv
      rw [mutate, get, rawGet]
      show ((findStorage ⟨updateList cs.storages t2 fun s2 => s2.modify e (mutFn t2 f)⟩ t2).bind
        fun s2 => s2.get e).bind (downcast t2) = some (f w)
      rw [findStorage_updateList_self, findStorage_eta, hfs, Option.map_some',
        Option.some_bind, SparseSet.get_modify_self, hge, Option.map_some',
        Option.some_bind, mutFn, downcast_mk]
      exact downcast_mk t2 (f w)

theorem keys_insert_new {cs : ComponentStorage} {t : CompTy}
    (hfs : findStorage cs t = none) (e : Nat) (v : t.interp) :
    keys (insert cs t e v) = keys cs ++ [t] := by
  have hins : insert cs t e v = ⟨cs.storages ++ [(t, SparseSet.new.insert e ⟨t, v⟩)]⟩ := by
    simp only [insert, hfs]
  rw [hins, keys, keys]
  show List.map Prod.fst (cs.storages ++ [(t, SparseSet.new.insert e (⟨t, v⟩ : ErasedComp))]) = _
  rw [List.map_append]
  rfl

theorem keys_insert_existing {cs : ComponentStorage} {t : CompTy}
    {s : SparseSet ErasedComp} (hfs : findStorage cs t = some s) (e : Nat)
    (v : t.interp) : keys (insert cs t e v) = keys cs := by
  have hins : insert cs t e v = ⟨updateList cs.storages t fun s2 => s2.insert e ⟨t, v⟩⟩ := by
    simp only [insert, hfs]
  rw [hins, keys, keys]
  show List.map Prod.fst (updateList cs.storages t
    fun s2 => s2.insert e (⟨t, v⟩ : ErasedComp)) = List.map Prod.fst cs.storages
  rw [keys_updateList]

theorem keys_remove (cs : ComponentStorage) (t : CompTy) (e : Nat) :
    keys (remove cs t e) = keys cs := by
  rcases hfs : findStorage cs t with _ | s
  · have hrem : remove cs t e = cs := by
      simp only [remove, hfs]
    rw [hrem]
  · have hrem : remove cs t e = ⟨updateList cs.storages t fun s2 => s2.remove e⟩ := by
      simp only [remove, hfs]
    rw [hrem, keys, keys]
    show List.map Prod.fst (updateList cs.storages t fun s2 => s2.remove e) =
      List.map Prod.fst cs.storages
    rw [keys_updateList]

theorem findStorage_insert_created (cs : ComponentStorage) (t : CompTy) (e : Nat)
    (v : t.interp) : findStorage (insert cs t e v) t ≠ none := by
  rcases hfs : findStorage cs t with _ | s
  · have hins : insert cs t e v = ⟨cs.storages ++ [(t, SparseSet.new.insert e ⟨t, v⟩)]⟩ := by
      simp only [insert, hfs]
    rw [hins, findStorage_append_self hfs]
    simp
  · have hins : insert cs t e v = ⟨updateList cs.storages t fun s2 => s2.insert e ⟨t, v⟩⟩ := by
      simp only [insert, hfs]
    rw [hins, findStorage_updateList_self, findStorage_eta, hfs, Option.map_some']
    simp

end ComponentStorage

/-! Codec layer: `lib/net/crates/codec/src/encode/primitives.rs`. -/

/-- Big-endian byte list of an unsigned value at bit width `w` (a multiple
of 8), as produced by `uN::to_be_bytes`. -/
def to_be_bytes (w : Nat) (n : Nat) : List Nat :=
  (List.range (w / 8)).map fun k => n / 2 ^ (w - 8 * (k + 1)) % 256

/-- Two's-complement cast of a signed integer to its unsigned pair (`x as uN`). -/
def toUnsigned (w : Nat) (x : Int) : Nat := (x % ((2 ^ w : Nat) : Int)).toNat

/-- Mirrors the macro's `impl NetEncode for $primitive_type` at width `w`:
`writer.write_all(&self.to_be_bytes())`. -/
def encode_uint (w : Nat) (n : Nat) : List Nat := to_be_bytes w n

/-- Mirrors the macro's `impl NetEncode for $alt` at the signed type `iN`:
`(*self as uN).encode(writer, opts)`. -/
def encode_int (w : Nat) (x : Int) : List Nat := encode_uint w (toUnsigned w x)

/-- Mirrors `impl NetEncode for f32`: the 4 big-endian bytes of the value,
i.e. of its 32-bit pattern (`f32::to_be_bytes`). -/
def encode_f32 (bits : Nat) : List Nat := to_be_bytes 32 bits

/-- Mirrors `impl NetEncode for f64` from the macro pair `f32 | f64`:
`(*self as f32).encode(writer, opts)`. The `as`-cast is IEEE-754 float
conversion, defined by Rust and not by this repository, so it enters as an
explicit parameter taking the 64-bit pattern to the converted 32-bit pattern. -/
def encode_f64 (f64_to_f32 : Nat → Nat) (bits : Nat) : List Nat :=
  encode_f32 (f64_to_f32 bits)

theorem length_to_be_bytes (w n : Nat) : (to_be_bytes w n).length = w / 8 := by
  rw [to_be_bytes, List.length_map, List.length_range]

/-! World-import argument parsing: `src/world/importing.rs`. -/

/-- Rust strings are represented as lists of characters. -/
abbrev RStr := List Char

/-- Mirrors `str::starts_with(pat)`. -/
def startsWith (pat s : RStr) : Bool := pat.isPrefixOf s

/-- Prepend `x` to the first fragment of a split result. -/
def consHead (x : Char) : List RStr → List RStr
  | [] => [[x]]
  | y :: ys => (x :: y) :: ys

theorem consHead_cons (x : Char) (y : RStr) (ys : List RStr) :
    consHead x (y :: ys) = (x :: y) :: ys := rfl

/-- Mirrors `str::split(c)`: the fragments between occurrences of `c`
(always at least one fragment, fragments may be empty). -/
def splitChar (c : Char) : RStr → List RStr
  | [] => [[]]
  | x :: xs =>
    if x = c then [] :: splitChar c xs
    else consHead x (splitChar c xs)

/-- Digit run for `i32::from_str`: one or more ASCII digits, as a number. -/
def digitsToNat? (l : RStr) : Option Nat :=
  if l = [] then none
  else if l.all Char.isDigit then
    some (l.foldl (fun a c => a * 10 + (c.toNat - 48)) 0)
  else none

/-- Mirrors `str::parse::<i32>().ok()`: optional sign, one or more digits,
result within the `i32` range, `none` on any failure. -/
def parse_i32 (s : RStr) : Option Int :=
  match s with
  | '+' :: rest => (digitsToNat? rest).bind fun n =>
      if n < 2 ^ 31 then some (n : Int) else none
  | '-' :: rest => (digitsToNat? rest).bind fun n =>
      if n ≤ 2 ^ 31 then some (-(n : Int)) else none
  | _ => (digitsToNat? s).bind fun n =>
      if n < 2 ^ 31 then some (n : Int) else none

/-- Mirrors `DEFAULT_BATCH_SIZE: u8 = 150`. -/
def DEFAULT_BATCH_SIZE : Nat := 150

/-- The `--batch_size=` flag text. -/
def batchSizeFlag : RStr := "--batch_size=".toList

/-- Mirrors `get_batch_size`: find the first argument starting with
`--batch_size=`, take the text after its last `=`, parse it as an `i32`;
on any failure fall back to the default. -/
def get_batch_size (args : List RStr) : Int :=
  match (args.find? fun x => startsWith batchSizeFlag x).bind
      (fun x => ((splitChar '=' x).getLast?).bind parse_i32) with
  | some size => size
  | none => ((DEFAULT_BATCH_SIZE : Nat) : Int)

/-- Text after the last occurrence of `c` (the whole string when `c` is
absent), written independently of `splitChar`. -/
def afterLastChar (c : Char) : RStr → RStr
  | [] => []
  | x :: xs =>
    if c ∈ xs then afterLastChar c xs
    else if x = c then xs
    else x :: xs

theorem afterLastChar_of_not_mem {c : Char} {s : RStr} (h : c ∉ s) :
    afterLastChar c s = s := by
  induction s with
  | nil => rfl
  | cons x xs ih =>
    have hxs : c ∉ xs := fun hh => h (List.mem_cons_of_mem x hh)
    have hxc : ¬x = c := fun hh => h (List.mem_cons.mpr (Or.inl hh.symm))
    rw [afterLastChar, if_neg hxs, if_neg hxc]

theorem splitChar_of_not_mem {c : Char} {s : RStr} (h : c ∉ s) :
    splitChar c s = [s] := by
  induction s with
  | nil => rfl
  | cons x xs ih =>
    have hxs : c ∉ xs := fun hh => h (List.mem_cons_of_mem x hh)
    have hxc : ¬x = c := fun hh => h (List.mem_cons.mpr (Or.inl hh.symm))
    rw [splitChar, if_neg hxc, ih hxs, consHead_cons]

theorem splitChar_ne_nil (c : Char) (s : RStr) : splitChar c s ≠ [] := by
  induction s with
  | nil => exact fun h => List.noConfusion h
  | cons x xs ih =>
    rw [splitChar]
    by_cases hxc : x = c
    · rw [if_pos hxc]
      exact fun h => List.noConfusion h
    · rw [if_neg hxc]
      rcases hsp : splitChar c xs with _ | ⟨y, ys⟩
      · exact absurd hsp ih
      · rw [consHead_cons]
        exact fun h => List.noConfusion h

theorem two_le_splitChar_of_mem {c : Char} {s : RStr} (h : c ∈ s) :
    2 ≤ (splitChar c s).length := by
  induction s with
  | nil => simp at h
  | cons x xs ih =>
    rw [splitChar]
    by_cases hxc : x = c
    · rw [if_pos hxc, List.length_cons]
      have h1 : 0 < (splitChar c xs).length :=
        List.length_pos.mpr (splitChar_ne_nil c xs)
      omega
    · have hxs : c ∈ xs := by
        rcases List.mem_cons.mp h with h1 | h1
        · exact absurd h1.symm hxc
        · exact h1
      rcases hsp : splitChar c xs with _ | ⟨y, ys⟩
      · exact absurd hsp (splitChar_ne_nil c xs)
      · rw [if_neg hxc, consHead_cons, List.length_cons]
        have h2 := ih hxs
        rw [hsp, List.length_cons] at h2
        omega

theorem getLast?_splitChar (c : Char) (s : RStr) :
    (splitChar c s).getLast? = some (afterLastChar c s) := by
  induction s with
  | nil => rfl
  | cons x xs ih =>
    rw [splitChar, afterLastChar]
    rcases hsp : splitChar c xs with _ | ⟨y, ys⟩
    · exact absurd hsp (splitChar_ne_nil c xs)
    · rw [hsp] at ih
      by_cases hxc : x = c
      · rw [if_pos hxc, List.getLast?_cons_cons, ih]
        by_cases hmem : c ∈ xs
        · rw [if_pos hmem]
        · rw [if_neg hmem, if_pos hxc, afterLastChar_of_not_mem hmem]
      · rw [if_neg hxc, consHead_cons]
        rcases ys with _ | ⟨y2, rest⟩
        · have hmem : c ∉ xs := by
            intro hc
            have h2 := two_le_splitChar_of_mem hc
            rw [hsp] at h2
            simp at h2
          have hy : y = xs := by
            have h1 := (splitChar_of_not_mem hmem).symm.trans hsp
            exact ((List.cons.inj h1).1).symm
          rw [if_neg hmem, if_neg hxc, hy, List.getLast?_singleton]
        · have hmem : c ∈ xs := by
            by_contra hc
            rw [splitChar_of_not_mem hc] at hsp
            exact List.noConfusion (List.cons.inj hsp).2
          rw [if_pos hmem, List.getLast?_cons_cons, ← ih, List.getLast?_cons_cons]

/-! Claim theorems. -/

/-- Example registry holding one `Position` component for entity 0. -/
def exStore : ComponentStorage :=
  ComponentStorage.insert ComponentStorage.new .position 0 ⟨1, 2⟩

theorem exStore_WF : exStore.WFStore :=
  ComponentStorage.WFStore_insert ComponentStorage.WFStore_new .position 0 ⟨1, 2⟩

/-- C1: for every entity id `e` and component value `v` of component type `t`,
`insert(e, v)` followed by `get::<T>(e)` returns a present guard whose
dereferenced fields equal `v`'s fields exactly. -/
theorem claim_insert_get_roundtrip (cs : ComponentStorage) (hw : cs.WFStore)
    (t : CompTy) (e : Nat) (v : t.interp) :
    ComponentStorage.get (ComponentStorage.insert cs t e v) t e = some v :=
  ComponentStorage.get_insert_store hw t e v

theorem claim_insert_get_roundtrip_witness :
    ComponentStorage.get (ComponentStorage.insert exStore .velocity 3 ⟨4, 5⟩)
      .velocity 3 = some ⟨4, 5⟩ :=
  claim_insert_get_roundtrip exStore exStore_WF .velocity 3 ⟨4, 5⟩

/-- C2: for every guard returned by `get::<T>` or `get_mut::<T>`, a successful
registry lookup keyed by `T`'s type identity guarantees the stored value's
concrete type is `T`, so the downcast performed by the guard dereference is
total: it yields exactly the stored value at type `T`. -/
theorem claim_downcast_total (cs : ComponentStorage) (hw : cs.WFStore)
    (t : CompTy) (e : Nat) (er : ErasedComp)
    (h : ComponentStorage.rawGet cs t e = some er ∨
      ComponentStorage.rawGetMut cs t e = some er) :
    ∃ v : t.interp, er = ⟨t, v⟩ ∧ downcast t er = some v := by
  have hr : ComponentStorage.rawGet cs t e = some er := by
    rcases h with h | h
    · exact h
    · exact h
  rw [ComponentStorage.rawGet] at hr
  rcases hfs : ComponentStorage.findStorage cs t with _ | s
  · rw [hfs] at hr
    exact absurd hr (by simp)
  · rw [hfs, Option.some_bind] at hr
    have hty : er.ty = t := (ComponentStorage.WF_of_findStorage hw hfs).2 e er hr
    rcases er with ⟨t2, w⟩
    have ht2 : t2 = t := hty
    subst ht2
    exact ⟨w, rfl, downcast_mk t2 w⟩

theorem claim_downcast_total_witness :
    ∃ v : CompTy.interp .position,
      (⟨.position, ⟨1, 2⟩⟩ : ErasedComp) = ⟨.position, v⟩ ∧
      downcast .position ⟨.position, ⟨1, 2⟩⟩ = some v :=
  claim_downcast_total exStore exStore_WF .position 0 ⟨.position, ⟨1, 2⟩⟩ (Or.inl rfl)

/-- C3: after `remove::<T>(e)`, `get::<T>(e)` returns absent; a subsequent
`insert(e, v2)` succeeds, after which `get::<T>(e)` views `v2`. -/
theorem claim_remove_get_reinsert (cs : ComponentStorage) (hw : cs.WFStore)
    (t : CompTy) (e : Nat) (v2 : t.interp) :
    ComponentStorage.get (ComponentStorage.remove cs t e) t e = none ∧
    ComponentStorage.get
      (ComponentStorage.insert (ComponentStorage.remove cs t e) t e v2) t e = some v2 :=
  ⟨ComponentStorage.get_remove_store_self hw t e,
   ComponentStorage.get_insert_store (ComponentStorage.WFStore_remove hw t e) t e v2⟩

theorem claim_remove_get_reinsert_witness :
    ComponentStorage.get (ComponentStorage.remove exStore .position 0) .position 0 = none ∧
    ComponentStorage.get
      (ComponentStorage.insert (ComponentStorage.remove exStore .position 0)
        .position 0 ⟨9, 9⟩) .position 0 = some ⟨9, 9⟩ :=
  claim_remove_get_reinsert exStore exStore_WF .position 0 ⟨9, 9⟩

/-- C4: `get::<T>(e)` and `get_mut::<T>(e)` return absent exactly when the
sparse set for `T` does not exist, or it exists but `e` has no slot in it;
both functions produce the same observable result, and absence is a value,
not an error. -/
theorem claim_absent_conditions (cs : ComponentStorage) (hw : cs.WFStore)
    (t : CompTy) (e : Nat) :
    (ComponentStorage.get cs t e = none ↔
      ComponentStorage.findStorage cs t = none ∨
      ∃ s, ComponentStorage.findStorage cs t = some s ∧ s.find e = none) ∧
    ComponentStorage.get_mut cs t e = ComponentStorage.get cs t e :=
  ⟨ComponentStorage.get_none_iff hw t e, rfl⟩

theorem claim_absent_conditions_witness :
    (ComponentStorage.get exStore .velocity 0 = none ↔
      ComponentStorage.findStorage exStore .velocity = none ∨
      ∃ s, ComponentStorage.findStorage exStore .velocity = some s ∧ s.find 0 = none) ∧
    ComponentStorage.get_mut exStore .velocity 0 = ComponentStorage.get exStore .velocity 0 :=
  claim_absent_conditions exStore exStore_WF .velocity 0

/-- C5: calling `remove::<T>(e)` twice in a row is safe: the second call is a
no-op (remove after remove equals a single remove), and no other entity's
slot is corrupted. -/
theorem claim_remove_idempotent (cs : ComponentStorage) (hw : cs.WFStore)
    (t : CompTy) (e : Nat) :
    ComponentStorage.remove (ComponentStorage.remove cs t e) t e =
      ComponentStorage.remove cs t e ∧
    ∀ e2, e2 ≠ e → ComponentStorage.get (ComponentStorage.remove cs t e) t e2 =
      ComponentStorage.get cs t e2 :=
  ⟨ComponentStorage.remove_remove_store hw t e,
   fun _ hne => ComponentStorage.get_remove_store_ne hw t hne⟩

theorem claim_remove_idempotent_witness :
    ComponentStorage.remove (ComponentStorage.remove exStore .position 0) .position 0 =
      ComponentStorage.remove exStore .position 0 ∧
    ∀ e2, e2 ≠ 0 → ComponentStorage.get (ComponentStorage.remove exStore .position 0)
      .position e2 = ComponentStorage.get exStore .position e2 :=
  claim_remove_idempotent exStore exStore_WF .position 0

/-- C6: the registry keeps at most one sparse set per type identity: the key
list stays duplicate-free, the set for `t` exists after the first insert, a
fresh set is appended only when none existed, and neither a further insert nor
a remove deletes a registered set. -/
theorem claim_registry_unique_sets (cs : ComponentStorage) (hw : cs.WFStore)
    (t : CompTy) (e : Nat) (v : t.interp) :
    (ComponentStorage.keys (ComponentStorage.insert cs t e v)).Nodup ∧
    ComponentStorage.findStorage (ComponentStorage.insert cs t e v) t ≠ none ∧
    (ComponentStorage.findStorage cs t = none →
      ComponentStorage.keys (ComponentStorage.insert cs t e v) =
        ComponentStorage.keys cs ++ [t]) ∧
    (ComponentStorage.findStorage cs t ≠ none →
      ComponentStorage.keys (ComponentStorage.insert cs t e v) =
        ComponentStorage.keys cs) ∧
    ComponentStorage.keys (ComponentStorage.remove cs t e) =
      ComponentStorage.keys cs := by
  refine ⟨(ComponentStorage.WFStore_insert hw t e v).1,
    ComponentStorage.findStorage_insert_created cs t e v,
    fun h => ComponentStorage.keys_insert_new h e v, ?_,
    ComponentStorage.keys_remove cs t e⟩
  intro h
  rcases hfs : ComponentStorage.findStorage cs t with _ | s
  · exact absurd hfs h
  · exact ComponentStorage.keys_insert_existing hfs e v

theorem claim_registry_unique_sets_witness :
    (ComponentStorage.keys (ComponentStorage.insert exStore .velocity 1 ⟨0, 0⟩)).Nodup ∧
    ComponentStorage.findStorage (ComponentStorage.insert exStore .velocity 1 ⟨0, 0⟩)
      .velocity ≠ none ∧
    (ComponentStorage.findStorage exStore .velocity = none →
      ComponentStorage.keys (ComponentStorage.insert exStore .velocity 1 ⟨0, 0⟩) =
        ComponentStorage.keys exStore ++ [.velocity]) ∧
    (ComponentStorage.findStorage exStore .velocity ≠ none →
      ComponentStorage.keys (ComponentStorage.insert exStore .velocity 1 ⟨0, 0⟩) =
        ComponentStorage.keys exStore) ∧
    ComponentStorage.keys (ComponentStorage.remove exStore .velocity 1) =
      ComponentStorage.keys exStore :=
  claim_registry_unique_sets exStore exStore_WF .velocity 1 ⟨0, 0⟩

/-- C7: inserting or removing type `t` for entity `e1` leaves the value that
`get::<t>(e2)` observes for any other entity `e2` unchanged. -/
theorem claim_entity_isolation (cs : ComponentStorage) (hw : cs.WFStore)
    (t : CompTy) (e1 e2 : Nat) (hne : e2 ≠ e1) (v : t.interp) :
    ComponentStorage.get (ComponentStorage.insert cs t e1 v) t e2 =
      ComponentStorage.get cs t e2 ∧
    ComponentStorage.get (ComponentStorage.remove cs t e1) t e2 =
      ComponentStorage.get cs t e2 :=
  ⟨ComponentStorage.get_insert_store_ne hw t hne v,
   ComponentStorage.get_remove_store_ne hw t hne⟩

theorem claim_entity_isolation_witness :
    ComponentStorage.get (ComponentStorage.insert exStore .position 5 ⟨7, 8⟩)
      .position 0 = ComponentStorage.get exStore .position 0 ∧
    ComponentStorage.get (ComponentStorage.remove exStore .position 5)
      .position 0 = ComponentStorage.get exStore .position 0 :=
  claim_entity_isolation exStore exStore_WF .position 5 0 (by decide) ⟨7, 8⟩

/-- C8: for an entity with a component of type `t` present, obtaining the
`get_mut` guard, mutating the component through it (applying `f`), dropping
the guard, and calling `get` observes the mutated value. -/
theorem claim_mutation_visibility (cs : ComponentStorage) (hw : cs.WFStore)
    (t : CompTy) (e : Nat) (v : t.interp) (f : t.interp → t.interp)
    (h : ComponentStorage.get_mut cs t e = some v) :
    ComponentStorage.get (ComponentStorage.mutate cs t e f) t e = some (f v) :=
  ComponentStorage.mutate_get hw f h

theorem claim_mutation_visibility_witness :
    ComponentStorage.get
      (ComponentStorage.mutate exStore .position 0 fun p => ⟨p.x + 10, p.y⟩)
      .position 0 = some ⟨11, 2⟩ :=
  claim_mutation_visibility exStore exStore_WF .position 0 ⟨1, 2⟩
    (fun p => ⟨p.x + 10, p.y⟩) rfl

/-- C9: in each macro pair the alternate type is cast to its paired primitive
before encoding: an `f64` is written as exactly the 4 big-endian bytes of its
`f32` cast, never as its own 8-byte representation, and each signed `iN` is
written as the big-endian bytes of its two's-complement cast to `uN`. -/
theorem claim_netencode_alt_casts :
    (∀ (conv : Nat → Nat) (bits : Nat),
      encode_f64 conv bits = encode_f32 (conv bits) ∧
      (encode_f64 conv bits).length = 4 ∧
      ∀ bits64 : Nat, (to_be_bytes 64 bits64).length = 8) ∧
    ∀ (w : Nat) (x : Int),
      encode_int w x = to_be_bytes w ((x % ((2 ^ w : Nat) : Int)).toNat) ∧
      (encode_int w x).length = w / 8 := by
  constructor
  · intro conv bits
    refine ⟨rfl, ?_, ?_⟩
    · rw [encode_f64, encode_f32, length_to_be_bytes]
    · intro bits64
      rw [length_to_be_bytes]
  · intro w x
    exact ⟨rfl, by rw [encode_int, encode_uint, length_to_be_bytes]⟩

/-- C10: `get_batch_size` returns the `i32` parsed from the text after the
last `=` of the first argument starting with `--batch_size=` when that parse
succeeds, and returns the default 150 in every other case, including when the
argument is present but does not parse as an `i32`. -/
theorem claim_get_batch_size (args : List RStr) :
    (∀ (a : RStr) (n : Int),
      (args.find? fun x => startsWith batchSizeFlag x) = some a →
      parse_i32 (afterLastChar '=' a) = some n →
      get_batch_size args = n) ∧
    (∀ a : RStr,
      (args.find? fun x => startsWith batchSizeFlag x) = some a →
      parse_i32 (afterLastChar '=' a) = none →
      get_batch_size args = 150) ∧
    ((args.find? fun x => startsWith batchSizeFlag x) = none →
      get_batch_size args = 150) := by
  refine ⟨?_, ?_, ?_⟩
  · intro a n hfind hparse
    rw [get_batch_size, hfind, Option.some_bind, getLast?_splitChar,
      Option.some_bind, hparse]
  · intro a hfind hparse
    rw [get_batch_size, hfind, Option.some_bind, getLast?_splitChar,
      Option.some_bind, hparse]
    rfl
  · intro hfind
    rw [get_batch_size, hfind]
    rfl

theorem claim_get_batch_size_witness :
    get_batch_size [String.toList "--batch_size=200"] = 200 ∧
    get_batch_size [String.toList "--batch_size=12x"] = 150 ∧
    get_batch_size [] = 150 :=
  ⟨(claim_get_batch_size [String.toList "--batch_size=200"]).1
      (String.toList "--batch_size=200") 200 rfl rfl,
   (claim_get_batch_size [String.toList "--batch_size=12x"]).2.1
      (String.toList "--batch_size=12x") rfl rfl,
   (claim_get_batch_size []).2.2 rfl⟩
